import Mathlib

/-!
Shallow embedding of `Gallery_GUI.py` (TKinter_Gallery_GUI): the bounded
LRU thumbnail cache, the filter/paginate pipeline of `ImageGallery`, the
mark/export operations, and the startup sequence.  Pure data and state
transitions are translated from the Python source; Tk rendering calls are
side effects outside the data model and are dropped.  Machine floats
(pandas numeric columns) are modelled as `Option ℚ`, with `none` playing
the role of NaN (every comparison with NaN is false in pandas, which is
exactly how `none` is treated below).
-/

set_option maxHeartbeats 1000000

namespace GalleryGui

/-- CONFIG constant `ROWS = 4` from Gallery_GUI.py. -/
def ROWS : Nat := 4

/-- CONFIG constant `COLS = 5` from Gallery_GUI.py. -/
def COLS : Nat := 5

/-- CONFIG constant `IMAGES_PER_PAGE = ROWS * COLS` from Gallery_GUI.py. -/
def IMAGES_PER_PAGE : Nat := ROWS * COLS

/-- CONFIG constant `MAX_THUMB_CACHE = 300` from Gallery_GUI.py. -/
def MAX_THUMB_CACHE : Nat := 300

/-- Cache keys are image paths. -/
abbrev Key := String

/-- Decoded thumbnail bitmaps are never inspected by the cache, so a handle is
modelled as a bare `Nat`. -/
abbrev Img := Nat

/-- State of `ThumbnailCache`.  Python's `OrderedDict` mapping
`path -> (image, timestamp)` is modelled as an association list ordered from
least-recently-used (head, what `popitem(last=False)` removes) to
most-recently-used (last, where `move_to_end` puts an entry).  Keys are unique,
as in a dict.  `max_size` is the constructor argument (the application passes
`MAX_THUMB_CACHE`). -/
structure ThumbnailCache where
  cache : List (Key × Img × Int)
  max_size : Nat
deriving DecidableEq, Repr

/-- Keys currently present, in recency order (head = least recently used). -/
def cacheKeys (c : ThumbnailCache) : List Key := c.cache.map (·.1)

/-- `ThumbnailCache.get`: on a hit, `move_to_end(path)` (the stored image and
timestamp are NOT changed) and return the image; on a miss return `None` and
leave the cache unchanged.  Moving the unique entry for `path` to the end is
`filter (key ≠ path) ++ [entry]`. -/
def ThumbnailCache.get (c : ThumbnailCache) (path : Key) : Option Img × ThumbnailCache :=
  match c.cache.find? (fun e => e.1 == path) with
  | some e => (some e.2.1, { c with cache := c.cache.filter (fun e' => e'.1 != path) ++ [e] })
  | none => (none, c)

/-- `ThumbnailCache._cleanup`: `while len(self.cache) > self.max_size:
self.cache.popitem(last=False)` — repeatedly drop the head (LRU end). -/
def cleanupLoop (n : Nat) (l : List (Key × Img × Int)) : List (Key × Img × Int) :=
  if _h : n < l.length then cleanupLoop n l.tail else l
termination_by l.length
decreasing_by simp only [List.length_tail]; omega

/-- `ThumbnailCache.put`: `self.cache[path] = (image, time.time())` (replacing
any previous entry for `path`), `move_to_end(path)`, then `_cleanup()`.  The
net effect of assignment plus `move_to_end` is: remove any old entry for
`path`, append a fresh entry stamped `now` at the MRU end. -/
def ThumbnailCache.put (c : ThumbnailCache) (path : Key) (image : Img) (now : Int) :
    ThumbnailCache :=
  { c with
    cache := cleanupLoop c.max_size
      (c.cache.filter (fun e => e.1 != path) ++ [(path, image, now)]) }

/-- `ThumbnailCache.purge_unused`: remove every entry whose stored timestamp
`t` satisfies `now - t > max_age_seconds`.  (Python collects the keys first and
then deletes them; with unique keys that is exactly an order-preserving
filter.) -/
def ThumbnailCache.purge_unused (c : ThumbnailCache) (now max_age_seconds : Int) :
    ThumbnailCache :=
  { c with cache := c.cache.filter (fun e => !decide (now - e.2.2 > max_age_seconds)) }

/-- One client-visible cache operation: `get path`, or `put path image` at clock
value `now` (the timestamp `time.time()` read inside `put`). -/
inductive CacheOp where
  | get (path : Key)
  | put (path : Key) (image : Img) (now : Int)
deriving DecidableEq, Repr

/-- Run one operation, keeping only the cache state. -/
def runOp (c : ThumbnailCache) : CacheOp → ThumbnailCache
  | .get p => (c.get p).2
  | .put p img t => c.put p img t

/-- Run a sequence of operations. -/
def runOps (c : ThumbnailCache) (ops : List CacheOp) : ThumbnailCache :=
  ops.foldl runOp c

/-- `ThumbnailCache(max_size)` constructor: empty OrderedDict. -/
def emptyCache (n : Nat) : ThumbnailCache := ⟨[], n⟩

/-- The sequence of keys touched by a run: a `put` always touches its key, a
`get` touches its key exactly when it is a hit (a miss neither moves nor
inserts anything). -/
def touchTrace (c : ThumbnailCache) : List CacheOp → List Key
  | [] => []
  | op :: rest =>
    (match op with
     | .get p => if p ∈ cacheKeys c then [p] else []
     | .put p _ _ => [p]) ++ touchTrace (runOp c op) rest

/-- Distinct keys of a trace, ordered by last occurrence (most recently touched
last). -/
def dedupLast : List Key → List Key
  | [] => []
  | k :: rest => if k ∈ rest then dedupLast rest else k :: dedupLast rest

/-- Last `n` elements of a list. -/
def takeLast (n : Nat) (l : List Key) : List Key := l.drop (l.length - n)

/-- Effect of touching key `k` on a most-recently-touched-last history: remove
`k` wherever it was and append it at the end. -/
def touchUpd (h : List Key) (k : Key) : List Key := h.filter (fun a => a != k) ++ [k]

/-- Fold a touch sequence over a history. -/
def foldTouches (h : List Key) (ts : List Key) : List Key := ts.foldl touchUpd h

/-- Invariant tying a cache to an abstract eviction history `a` (the keys
touched at some point but since evicted, oldest first): the capacity is `n`,
no key is duplicated across history and cache, the cache holds at most `n`
keys, and eviction only ever happens at full capacity. -/
def CacheInv (n : Nat) (a : List Key) (c : ThumbnailCache) : Prop :=
  c.max_size = n ∧ (a ++ cacheKeys c).Nodup ∧ (cacheKeys c).length ≤ n ∧
    (a ≠ [] → (cacheKeys c).length = n)

/-!
Regular expressions.  `_apply_filters` runs the text filters through
`pandas.Series.str.contains(q, case=False)`, whose default is `regex=True`:
the query is a Python regular expression searched (`re.search` semantics)
inside the field, not a literal substring.  We embed this with a classic
total Brzozowski-derivative matcher over a regex AST, plus a parser for the
metacharacter-free core of Python patterns (literals, `.`, `*`, `+`, `?`,
top-level `|`).  Patterns using further constructs (groups, classes, anchors,
escapes, repeats of repeats) are outside the model: `parsePattern` rejects
them, and every theorem touching text filtering either quantifies over
predicates as opaque booleans (where the regex semantics is irrelevant) or
restricts to parsed patterns.
-/

/-- Regex AST: empty language, empty string, one literal character, any one
character (`.`), alternation, concatenation, Kleene star. -/
inductive Rx where
  | emp
  | eps
  | lit (c : Char)
  | dot
  | alt (a b : Rx)
  | cat (a b : Rx)
  | star (a : Rx)
deriving DecidableEq, Repr

/-- Does the regex accept the empty string? -/
def Rx.nullable : Rx → Bool
  | .emp => false
  | .eps => true
  | .lit _ => false
  | .dot => false
  | .alt a b => a.nullable || b.nullable
  | .cat a b => a.nullable && b.nullable
  | .star _ => true

/-- Brzozowski derivative of a regex by one character. -/
def Rx.deriv : Rx → Char → Rx
  | .emp, _ => .emp
  | .eps, _ => .emp
  | .lit c, x => if x = c then .eps else .emp
  | .dot, _ => .eps
  | .alt a b, x => .alt (a.deriv x) (b.deriv x)
  | .cat a b, x => if a.nullable then .alt (.cat (a.deriv x) b) (b.deriv x)
                   else .cat (a.deriv x) b
  | .star a, x => .cat (a.deriv x) (.star a)

/-- Full-string match by iterated derivatives. -/
def rmatchList (r : Rx) (s : List Char) : Bool := (s.foldl Rx.deriv r).nullable

/-- `re.search` semantics: the pattern matches somewhere inside the string,
i.e. `Σ* r Σ*` matches the whole string. -/
def rsearch (r : Rx) (s : List Char) : Bool :=
  rmatchList (.cat (.star .dot) (.cat r (.star .dot))) s

/-- The language of a regex, as an inductive predicate. -/
inductive RxLang : Rx → List Char → Prop where
  | eps : RxLang .eps []
  | lit (c : Char) : RxLang (.lit c) [c]
  | dot (c : Char) : RxLang .dot [c]
  | altL {a b : Rx} {s : List Char} : RxLang a s → RxLang (.alt a b) s
  | altR {a b : Rx} {s : List Char} : RxLang b s → RxLang (.alt a b) s
  | cat {a b : Rx} {u v : List Char} :
      RxLang a u → RxLang b v → RxLang (.cat a b) (u ++ v)
  | starNil {a : Rx} : RxLang (.star a) []
  | starCons {a : Rx} {u v : List Char} :
      RxLang a u → RxLang (.star a) v → RxLang (.star a) (u ++ v)

/-- One step of parsing a `|`-free branch of a Python pattern.  The
accumulator is the reversed list of parsed atoms, each flagged with whether it
was produced by a repeat operator (Python rejects a repeat of a repeat, e.g.
`a**`); `none` means the pattern is rejected/unsupported. -/
def branchStep (acc : Option (List (Rx × Bool))) (c : Char) : Option (List (Rx × Bool)) :=
  match acc with
  | none => none
  | some rs =>
    if c = '*' ∨ c = '+' ∨ c = '?' then
      match rs with
      | [] => none
      | (r, wasRepeat) :: rest =>
        if wasRepeat then none
        else if c = '*' then some ((.star r, true) :: rest)
        else if c = '+' then some ((.cat r (.star r), true) :: rest)
        else some ((.alt r .eps, true) :: rest)
    else if c = '.' then some ((.dot, false) :: rs)
    else if c ∈ ['(', ')', '[', ']', '^', '$', '\\'] ∨ c = '\x7b' ∨ c = '\x7d' then none
    else some ((.lit c, false) :: rs)

/-- Parse one alternation branch into the concatenation of its atoms. -/
def parseBranch (cs : List Char) : Option Rx :=
  match cs.foldl branchStep (some []) with
  | none => none
  | some rs => some (rs.reverse.foldr (fun rb acc => .cat rb.1 acc) .eps)

/-- Split a pattern at (top-level) `|` characters, as Python alternation does
for patterns without groups. -/
def splitBar : List Char → List (List Char)
  | [] => [[]]
  | c :: rest =>
    if c = '|' then [] :: splitBar rest
    else
      match splitBar rest with
      | [] => [[c]]
      | h :: t => (c :: h) :: t

/-- Combine alternation branches. -/
def altChain : List Rx → Rx
  | [] => .emp
  | [r] => r
  | r :: rest => .alt r (altChain rest)

/-- Parse every alternation branch, failing if any fails. -/
def parseBranches : List (List Char) → Option (List Rx)
  | [] => some []
  | b :: rest =>
    match parseBranch b, parseBranches rest with
    | some r, some rs => some (r :: rs)
    | _, _ => none

/-- Parse a Python pattern from the supported subset. -/
def parsePattern (pat : String) : Option Rx :=
  (parseBranches (splitBar pat.data)).map altChain

/-- `pandas.Series.str.contains(pat, case=False)` on an already-lowercased
series and pattern: regex search of `pat` inside the string.  Patterns outside
the supported subset are not modelled (`false` here); theorems about text
filtering restrict to patterns `parsePattern` accepts. -/
def pyContains (pat s : String) : Bool :=
  match parsePattern pat with
  | some r => rsearch r s.data
  | none => false

/-- Literal regex for a character list: the chain of its characters. -/
def litChain : List Char → Rx
  | [] => .eps
  | c :: cs => .cat (.lit c) (litChain cs)

/-- Is `q` a contiguous initial segment of `s`? -/
def isPre : List Char → List Char → Bool
  | [], _ => true
  | _ :: _, [] => false
  | a :: as, b :: bs => a == b && isPre as bs

/-- Literal contiguous-substring containment of `q` in `s`. -/
def containsSub (q : List Char) : List Char → Bool
  | [] => isPre q []
  | s@(_ :: rest) => isPre q s || containsSub q rest

/-- Characters with no special regex meaning in the supported subset. -/
def plainChar (c : Char) : Bool :=
  !decide (c ∈ ['(', ')', '[', ']', '^', '$', '\\', '*', '+', '?', '|', '.'] ∨
    c = '\x7b' ∨ c = '\x7d')

/-- A pattern built only from plain characters (matched literally by `re`). -/
def plainPattern (q : String) : Bool := q.data.all plainChar

/-!
Data model of the gallery.  A table row carries its stable pandas index
(`idx`, the identity assigned at load), the `dir`/`file` identity fields, the
`__marked__` flag, and its attribute values: numeric columns as `Option ℚ`
(`none` = NaN; pandas comparisons with NaN are false) and categorical columns
as `Option String` (`none` = NaN; `NaN == x` is false).
-/

/-- One row of `self.df`. -/
structure Row where
  idx : Nat
  dir : String
  file : String
  marked : Bool
  nums : List (String × Option ℚ)
  cats : List (String × Option String)
deriving DecidableEq, Repr

/-- Value of numeric column `k` in a row (`none` for NaN or an absent column;
both compare as false below, like NaN in pandas). -/
def Row.numAt (r : Row) (k : String) : Option ℚ :=
  match r.nums.lookup k with
  | some v => v
  | none => none

/-- Value of categorical column `k` in a row. -/
def Row.catAt (r : Row) (k : String) : Option String :=
  match r.cats.lookup k with
  | some v => v
  | none => none

/-- The filter widgets read by `_apply_filters`: one `(min, max)` slider pair
per numeric column, one combobox selection per categorical column (`"All"` is
the no-restriction sentinel), the two search entries, and the hide-marked
checkbox. -/
structure FilterSettings where
  numeric_filters : List (String × ℚ × ℚ)
  category_filters : List (String × String)
  dir_search : String
  file_search : String
  hide_marked : Bool
deriving DecidableEq, Repr

/-- One numeric predicate `(df[k] >= mn) & (df[k] <= mx)`; a NaN value fails
both comparisons in pandas. -/
def numPass (r : Row) (f : String × ℚ × ℚ) : Bool :=
  match r.numAt f.1 with
  | some x => decide (f.2.1 ≤ x) && decide (x ≤ f.2.2)
  | none => false

/-- One categorical predicate: selection `"All"` imposes nothing, otherwise
`df[k] == selection` (false for NaN). -/
def catPass (r : Row) (f : String × String) : Bool :=
  if f.2 = "All" then true
  else
    match r.catAt f.1 with
    | some v => v == f.2
    | none => false

/-- Python `str.strip()`: drop whitespace from both ends (ASCII whitespace;
Python additionally strips some rarer Unicode spaces, which no claim
exercises). -/
def pyStrip (s : String) : String :=
  ⟨((s.data.dropWhile Char.isWhitespace).reverse.dropWhile Char.isWhitespace).reverse⟩

/-- Python `str.lower()` (ASCII case mapping, as `Char.toLower`; no claim
exercises non-ASCII case folding). -/
def pyLower (s : String) : String := ⟨s.data.map Char.toLower⟩

/-- One text predicate: the query is `.strip().lower()`ed; an empty stripped
query is falsy, so it imposes nothing; otherwise
`field.str.lower().str.contains(q, case=False)` — a regex search of the
stripped lowercased query inside the lowercased field. -/
def textPass (query field : String) : Bool :=
  let q := pyLower (pyStrip query)
  if q = "" then true else pyContains q (pyLower field)

/-- Conjunction of all predicates of `_apply_filters` except hide-marked
(numeric ranges, categorical selections, dir and file searches). -/
def rowPassesBase (fs : FilterSettings) (r : Row) : Bool :=
  fs.numeric_filters.all (numPass r) &&
  fs.category_filters.all (catPass r) &&
  textPass fs.dir_search r.dir &&
  textPass fs.file_search r.file

/-- Full row predicate of `_apply_filters`: the base predicates, plus
`df["__marked__"] == False` when hide-marked is on. -/
def rowPasses (fs : FilterSettings) (r : Row) : Bool :=
  rowPassesBase fs r && (!fs.hide_marked || !r.marked)

/-- The FilteredView computed by `_apply_filters`: successive boolean-mask
restrictions of a copy of `self.df`, i.e. an order-preserving filter by the
conjunction of the active predicates. -/
def applyFiltersPure (fs : FilterSettings) (t : List Row) : List Row :=
  t.filter (rowPasses fs)

/-- `max(0, math.ceil(len / IMAGES_PER_PAGE) - 1)`: the greatest valid page
index of a view of length `len` (0 for an empty view). -/
def maxPageOf (len : Nat) : Nat :=
  max 0 ((len + IMAGES_PER_PAGE - 1) / IMAGES_PER_PAGE - 1)

/-- `max(1, math.ceil(len / IMAGES_PER_PAGE))`: the displayed page count of a
view of length `len` (from `_update_page_label` / `_update_marked_page_label`). -/
def pageCount (len : Nat) : Nat :=
  max 1 ((len + IMAGES_PER_PAGE - 1) / IMAGES_PER_PAGE)

/-- The mutable `ImageGallery` state relevant to filtering, paging, marking and
selection: the table, the filter widgets, the two page indices, the selection,
and the cached `self.filtered_df`. -/
structure GState where
  df : List Row
  settings : FilterSettings
  page : Nat
  marked_page : Nat
  selected_index : Option Nat
  filtered_df : List Row
deriving DecidableEq, Repr

/-- `ImageGallery._apply_filters(reset_page)`: recompute `filtered_df`, clamp
`self.page` to `min(page, max_page)` (then reset it to 0 when `reset_page`),
and clear the selection.  `self.marked_page` is not touched.  Rendering and
label updates have no effect on this state. -/
def applyFilters (reset_page : Bool) (s : GState) : GState :=
  let fd := applyFiltersPure s.settings s.df
  let mp := maxPageOf fd.length
  let p := if reset_page then 0 else min s.page mp
  { s with filtered_df := fd, page := p, selected_index := none }

/-- `ImageGallery._next_page`: increment only while strictly below `max_page`. -/
def nextPage (s : GState) : GState :=
  if s.page < maxPageOf s.filtered_df.length then { s with page := s.page + 1 } else s

/-- `ImageGallery._prev_page`: decrement only while strictly above 0. -/
def prevPage (s : GState) : GState :=
  if 0 < s.page then { s with page := s.page - 1 } else s

/-- Number of marked rows, `self.df["__marked__"].sum()`. -/
def markedCount (s : GState) : Nat := (s.df.filter (·.marked)).length

/-- The marked view, `self.df[self.df["__marked__"]]`, in Table order. -/
def markedView (s : GState) : List Row := s.df.filter (·.marked)

/-- `ImageGallery._next_marked_page`: increment only while
`(marked_page + 1) * IMAGES_PER_PAGE < marked_count`. -/
def nextMarkedPage (s : GState) : GState :=
  if (s.marked_page + 1) * IMAGES_PER_PAGE < markedCount s then
    { s with marked_page := s.marked_page + 1 }
  else s

/-- `ImageGallery._prev_marked_page`: decrement only while strictly above 0. -/
def prevMarkedPage (s : GState) : GState :=
  if 0 < s.marked_page then { s with marked_page := s.marked_page - 1 } else s

/-- `ImageGallery._select_row(idx)`: clicking a thumbnail stores that row's
stable index as the selection. -/
def selectRow (i : Nat) (s : GState) : GState := { s with selected_index := some i }

/-- `ImageGallery._toggle_mark`: with no selection, do nothing; otherwise flip
`df.at[selected_index, "__marked__"]` and call `_apply_filters(reset_page=False)`. -/
def toggleMark (s : GState) : GState :=
  match s.selected_index with
  | none => s
  | some i =>
    applyFilters false
      { s with df := s.df.map (fun r => if r.idx = i then { r with marked := !r.marked } else r) }

/-- `ImageGallery._mark_all_filtered`: set `__marked__` to true for exactly the
rows whose stable index occurs in `self.filtered_df["index"]`, then call
`_apply_filters(reset_page=False)`. -/
def markAllFiltered (s : GState) : GState :=
  let idxs := s.filtered_df.map (·.idx)
  applyFilters false
    { s with df := s.df.map (fun r => if r.idx ∈ idxs then { r with marked := true } else r) }

/-- `ImageGallery._clear_marked`: set every row's `__marked__` to false, then
call `_apply_filters(reset_page=False)`. -/
def clearMarked (s : GState) : GState :=
  applyFilters false { s with df := s.df.map (fun r => { r with marked := false }) }

/-- Toggle the hide-marked checkbox (a widget write; filters re-run only when
the user presses "Apply filters"). -/
def setHideMarked (b : Bool) (s : GState) : GState :=
  { s with settings := { s.settings with hide_marked := b } }

/-- Does the string start with a path separator? -/
def startsWithSlash (s : String) : Bool := isPre ['/'] s.data

/-- Does the string end with a path separator? -/
def endsWithSlash (s : String) : Bool := isPre ['/'] s.data.reverse

/-- `os.path.join(d, f)` with POSIX separators, as used for every image path
and every exported line: an absolute second component replaces the first; a
trailing separator on the first component is not doubled. -/
def pathJoin (d f : String) : String :=
  if startsWithSlash f then f
  else if d = "" then f
  else if endsWithSlash d then d ++ f
  else d ++ "/" ++ f

/-- `ImageGallery._export_marked_txt`, abstracted over the file-save dialog:
with no marked rows it shows a notice and returns without writing (`none`);
otherwise the written file content is the concatenation, in Table order, of
`os.path.join(dir, file) + "\n"` over the marked rows (the Python write loop,
modelled as a fold accumulating the content). -/
def exportMarkedTxt (t : List Row) : Option String :=
  let marked_df := t.filter (·.marked)
  if marked_df.isEmpty then none
  else some (marked_df.foldl (fun acc r => acc ++ (pathJoin r.dir r.file ++ "\n")) "")

/-- Modelled from the spec: "one `dir/file` path per line, one per marked row,
in Table order ... newline-terminated" — the per-row recursive rendering of
the export content, used to state what `exportMarkedTxt` writes. -/
def specExportLines : List Row → String
  | [] => ""
  | r :: rest => pathJoin r.dir r.file ++ "\n" ++ specExportLines rest

/-!
Startup sequence.  `ImageGallery.__init__` runs `_load_dataframe()`, then
unconditionally `_build_layout()` and `_apply_filters()`.  `_load_dataframe`
handles its two fatal cases (dialog cancelled; required columns missing) by
calling `self.destroy()` and `return` — which only leaves `_load_dataframe`,
not `__init__`.  We model the attributes `_load_dataframe` may leave unset as
`Option` fields, and `_build_layout` as a fallible step: creating a Tk widget
on a destroyed root raises `TclError`, and even ignoring that, reading an
attribute that was never assigned (`dataset_name`, `numeric_keys`, ...) raises
`AttributeError`; either way an exception propagates out of `__init__`
uncaught. -/

/-- One CSV column as seen at load: its name and whether
`pd.api.types.is_numeric_dtype` holds for it. -/
structure CsvColumn where
  name : String
  numericDtype : Bool
deriving DecidableEq, Repr

/-- Attributes of the `ImageGallery` instance that `_load_dataframe` assigns,
each `none` until (unless) the corresponding assignment runs, plus whether
`self.destroy()` and `messagebox.showerror` were called. -/
structure InitState where
  dataset_path : Option String
  dataset_name : Option String
  dfColumns : Option (List CsvColumn)
  numeric_keys : Option (List String)
  category_keys : Option (List String)
  errorShown : Bool
  destroyed : Bool
deriving DecidableEq, Repr

/-- Column names excluded from attribute classification. -/
def excludedCols : List String := ["dir", "file", "__marked__", "Unnamed: 0"]

/-- `ImageGallery._load_dataframe()`: `input` is the dialog result — `none`
when the user cancels, otherwise the chosen path and the columns of the loaded
CSV.  Cancelling destroys the window and returns with nothing assigned.  A
table without both `dir` and `file` shows an error and destroys the window,
leaving `numeric_keys`/`category_keys` unassigned.  Otherwise `__marked__` is
added if absent and the columns are classified. -/
def loadDataframe (input : Option (String × List CsvColumn)) : InitState :=
  match input with
  | none =>
    { dataset_path := none, dataset_name := none, dfColumns := none,
      numeric_keys := none, category_keys := none,
      errorShown := false, destroyed := true }
  | some (path, cols0) =>
    let names0 := cols0.map (·.name)
    if ¬ ("dir" ∈ names0 ∧ "file" ∈ names0) then
      { dataset_path := some path, dataset_name := some path, dfColumns := some cols0,
        numeric_keys := none, category_keys := none,
        errorShown := true, destroyed := true }
    else
      let cols := if "__marked__" ∈ names0 then cols0 else cols0 ++ [⟨"__marked__", false⟩]
      let numKeys := (cols.filter (fun c => c.name ∉ excludedCols && c.numericDtype)).map (·.name)
      let catKeys := (cols.filter (fun c => c.name ∉ excludedCols && c.name ∉ numKeys)).map (·.name)
      { dataset_path := some path, dataset_name := some path, dfColumns := some cols,
        numeric_keys := some numKeys, category_keys := some catKeys,
        errorShown := false, destroyed := false }

/-- `ImageGallery._build_layout()` (and `_build_filter_panel` inside it):
fails by raising when the root window was already destroyed (Tk refuses to
create widgets, `TclError`) or when it reads an attribute `_load_dataframe`
never assigned (`AttributeError`).  On a fully loaded state it succeeds. -/
def buildLayout (s : InitState) : Except String Unit :=
  if s.destroyed then .error "TclError: application has been destroyed"
  else
    match s.dataset_name, s.numeric_keys, s.category_keys with
    | some _, some _, some _ => .ok ()
    | _, _, _ => .error "AttributeError"

/-- `ImageGallery.__init__` after the widget-independent setup: run
`_load_dataframe`, then — with no check of whether it aborted —
`_build_layout` (then `_apply_filters`, irrelevant to the failure cases).
`Except.error e` means an exception `e` escapes `__init__` uncaught. -/
def initGallery (input : Option (String × List CsvColumn)) : Except String InitState :=
  let s := loadDataframe input
  match buildLayout s with
  | .error e => .error e
  | .ok _ => .ok s

/-! Concrete fixtures used by counterexamples and witnesses. -/

/-- A marked row with stable index `i` (all other fields constant). -/
def mkRow (i : Nat) : Row := ⟨i, "d", "f", true, [], []⟩

/-- A 21-row table, every row marked: two pages of marked view. -/
def df21 : List Row := (List.range 21).map mkRow

/-- Filter-widget state with every filter inactive. -/
def trivialSettings : FilterSettings := ⟨[], [], "", "", false⟩

/-- Startup-like state over `df21`. -/
def s21 : GState := ⟨df21, trivialSettings, 0, 0, none, []⟩

/-- A one-row state whose row is selected (as after clicking its thumbnail). -/
def sSel : GState :=
  ⟨[⟨0, "d", "f", false, [], []⟩], trivialSettings, 0, 0, some 0,
    [⟨0, "d", "f", false, [], []⟩]⟩

/-! Helper lemmas about the cache model. -/

theorem cleanupLoop_of_le {n : Nat} {l : List (Key × Img × Int)} (h : l.length ≤ n) :
    cleanupLoop n l = l := by
  rw [cleanupLoop, dif_neg (by omega)]

theorem cleanupLoop_of_succ {n : Nat} {l : List (Key × Img × Int)} (h : l.length = n + 1) :
    cleanupLoop n l = l.tail := by
  rw [cleanupLoop, dif_pos (by omega)]
  exact cleanupLoop_of_le (by simp [List.length_tail]; omega)

theorem keys_filter (l : List (Key × Img × Int)) (p : Key) :
    (l.filter (fun e => e.1 != p)).map (·.1) = (l.map (·.1)).filter (fun k => k != p) := by
  induction l with
  | nil => rfl
  | cons e t ih =>
    by_cases h : e.1 = p <;> simp [List.filter_cons, h, ih]

theorem takeLast_of_le {n : Nat} {l : List Key} (h : l.length ≤ n) : takeLast n l = l := by
  simp [takeLast, Nat.sub_eq_zero_of_le h]

theorem takeLast_append_of_length {n : Nat} {a l : List Key} (h : l.length = n) :
    takeLast n (a ++ l) = l := by
  simp only [takeLast, List.length_append, h, Nat.add_sub_cancel]
  exact List.drop_left a l

theorem dedupLast_append (l : List Key) (k : Key) :
    dedupLast (l ++ [k]) = touchUpd (dedupLast l) k := by
  induction l with
  | nil => simp [dedupLast, touchUpd]
  | cons a t ih =>
    by_cases hak : a = k
    · subst hak
      rw [List.cons_append, dedupLast, if_pos (by simp), ih]
      by_cases hat : a ∈ t
      · rw [dedupLast, if_pos hat]
      · rw [dedupLast, if_neg hat, touchUpd, touchUpd, List.filter_cons]
        simp
    · rw [List.cons_append, dedupLast]
      by_cases hat : a ∈ t
      · rw [if_pos (by simp [hat]), ih, dedupLast, if_pos hat]
      · rw [if_neg (by simp [hat, hak]), ih, dedupLast, if_neg hat,
          touchUpd, touchUpd, List.filter_cons]
        simp [hak]

theorem foldTouches_dedupLast : ∀ (ts l : List Key), foldTouches (dedupLast l) ts = dedupLast (l ++ ts)
  | [], l => by simp [foldTouches]
  | t :: ts, l => by
    show foldTouches (touchUpd (dedupLast l) t) ts = _
    rw [← dedupLast_append, foldTouches_dedupLast ts (l ++ [t])]
    simp

theorem foldTouches_append (h : List Key) (t₁ t₂ : List Key) :
    foldTouches h (t₁ ++ t₂) = foldTouches (foldTouches h t₁) t₂ :=
  List.foldl_append ..

theorem get_hit {c : ThumbnailCache} {p : Key} (h : p ∈ cacheKeys c) :
    cacheKeys (c.get p).2 = (cacheKeys c).filter (fun k => k != p) ++ [p] ∧
    (c.get p).2.max_size = c.max_size := by
  obtain ⟨e, he, hep⟩ : ∃ e, e ∈ c.cache ∧ e.1 = p := by
    simpa [cacheKeys, List.mem_map] using h
  have hsome : (c.cache.find? (fun e => e.1 == p)).isSome :=
    List.find?_isSome.mpr ⟨e, he, by simp [hep]⟩
  obtain ⟨e', hfind⟩ := Option.isSome_iff_exists.mp hsome
  have he'p : e'.1 = p := by simpa using List.find?_some hfind
  simp only [ThumbnailCache.get, hfind]
  constructor
  · simp [cacheKeys, keys_filter, he'p]
  · trivial

theorem get_miss {c : ThumbnailCache} {p : Key} (h : p ∉ cacheKeys c) :
    (c.get p).2 = c := by
  have hnone : c.cache.find? (fun e => e.1 == p) = none :=
    List.find?_eq_none.mpr (fun e he => by
      simp only [beq_iff_eq]
      exact fun hep => h (by simp only [cacheKeys, List.mem_map]; exact ⟨e, he, hep⟩))
  simp [ThumbnailCache.get, hnone]

theorem hist_move {a K : List Key} {p : Key} (hnd : (a ++ K).Nodup) (hp : p ∈ K) :
    a ++ (K.filter (fun k => k != p) ++ [p]) = touchUpd (a ++ K) p ∧
    (K.filter (fun k => k != p) ++ [p]).Perm K ∧
    (a ++ (K.filter (fun k => k != p) ++ [p])).Nodup := by
  have hKnd : K.Nodup := hnd.of_append_right
  have hpa : p ∉ a := fun hin => (List.disjoint_of_nodup_append hnd) hin hp
  have hfe : K.filter (fun k => k != p) = K.erase p := (hKnd.erase_eq_filter p).symm
  have hperm : (K.filter (fun k => k != p) ++ [p]).Perm K := by
    rw [hfe]
    exact (List.perm_append_singleton _ _).trans (List.perm_cons_erase hp).symm
  refine ⟨?_, hperm, ((hperm.append_left a).nodup_iff).mpr hnd⟩
  · have hfa : a.filter (fun k => k != p) = a :=
      List.filter_eq_self.mpr (fun x hx => by
        simp only [bne_iff_ne, ne_eq]
        exact fun hxp => hpa (hxp ▸ hx))
    rw [touchUpd, List.filter_append, hfa]
    simp [List.append_assoc]

theorem not_mem_filter_ne (a : List Key) (p : Key) :
    p ∉ a.filter (fun k => k != p) := by
  intro hmem
  have := (List.mem_filter.mp hmem).2
  simp at this

theorem step_hist (n : Nat) (op : CacheOp) (c : ThumbnailCache) (a : List Key)
    (h : CacheInv n a c) :
    ∃ a₁, CacheInv n a₁ (runOp c op) ∧
      a₁ ++ cacheKeys (runOp c op) =
        foldTouches (a ++ cacheKeys c)
          (match op with
           | .get p => if p ∈ cacheKeys c then [p] else []
           | .put p _ _ => [p]) := by
  obtain ⟨hms, hnd, hlen, hfull⟩ := h
  cases op with
  | get p =>
    show ∃ a₁, CacheInv n a₁ (c.get p).2 ∧
      a₁ ++ cacheKeys (c.get p).2 =
        foldTouches (a ++ cacheKeys c) (if p ∈ cacheKeys c then [p] else [])
    by_cases hp : p ∈ cacheKeys c
    · obtain ⟨hkeys, hms'⟩ := get_hit hp
      obtain ⟨heq, hperm, hnd'⟩ := hist_move hnd hp
      rw [if_pos hp]
      refine ⟨a, ⟨hms' ▸ hms, ?_, ?_, ?_⟩, ?_⟩
      · rw [hkeys]; exact hnd'
      · rw [hkeys, hperm.length_eq]; exact hlen
      · intro ha; rw [hkeys, hperm.length_eq]; exact hfull ha
      · rw [hkeys, heq]; simp [foldTouches]
    · rw [get_miss hp, if_neg hp]
      exact ⟨a, ⟨hms, hnd, hlen, hfull⟩, by simp [foldTouches]⟩
  | put p img t =>
    show ∃ a₁, CacheInv n a₁ (c.put p img t) ∧
      a₁ ++ cacheKeys (c.put p img t) = foldTouches (a ++ cacheKeys c) [p]
    have hpre : (c.cache.filter (fun e => e.1 != p) ++ [(p, img, t)]).map (·.1) =
        (cacheKeys c).filter (fun k => k != p) ++ [p] := by
      simp [keys_filter, cacheKeys]
    have hprelen : (c.cache.filter (fun e => e.1 != p) ++ [(p, img, t)]).length =
        ((cacheKeys c).filter (fun k => k != p)).length + 1 := by
      have := congrArg List.length hpre
      simpa using this
    have hmsput : (c.put p img t).max_size = c.max_size := rfl
    by_cases hp : p ∈ cacheKeys c
    · obtain ⟨heq, hperm, hnd'⟩ := hist_move hnd hp
      have hflen : ((cacheKeys c).filter (fun k => k != p)).length + 1 = (cacheKeys c).length := by
        have := hperm.length_eq; simpa using this
      have hclean : (c.put p img t).cache =
          c.cache.filter (fun e => e.1 != p) ++ [(p, img, t)] := by
        show cleanupLoop c.max_size _ = _
        exact cleanupLoop_of_le (by rw [hprelen, hflen, hms]; exact hlen)
      have hkeys : cacheKeys (c.put p img t) =
          (cacheKeys c).filter (fun k => k != p) ++ [p] := by
        show (c.put p img t).cache.map (·.1) = _
        rw [hclean, hpre]
      refine ⟨a, ⟨hmsput ▸ hms, ?_, ?_, ?_⟩, ?_⟩
      · rw [hkeys]; exact hnd'
      · rw [hkeys, hperm.length_eq]; exact hlen
      · intro ha; rw [hkeys, hperm.length_eq]; exact hfull ha
      · rw [hkeys, heq]; simp [foldTouches]
    · have hKnd : (cacheKeys c).Nodup := hnd.of_append_right
      have hfK : (cacheKeys c).filter (fun k => k != p) = cacheKeys c :=
        List.filter_eq_self.mpr (fun x hx => by
          simp only [bne_iff_ne, ne_eq]
          exact fun hxp => hp (hxp ▸ hx))
      have htouch : foldTouches (a ++ cacheKeys c) [p] =
          (a.filter (fun k => k != p)) ++ (cacheKeys c ++ [p]) := by
        simp only [foldTouches, List.foldl_cons, List.foldl_nil, touchUpd, List.filter_append,
          hfK]
        simp [List.append_assoc]
      by_cases hlt : (cacheKeys c).length < n
      · have ha : a = [] := by
          by_contra hne
          exact absurd (hfull hne) (by omega)
        subst ha
        have hclean : (c.put p img t).cache =
            c.cache.filter (fun e => e.1 != p) ++ [(p, img, t)] := by
          show cleanupLoop c.max_size _ = _
          exact cleanupLoop_of_le (by rw [hprelen, hfK, hms]; omega)
        have hkeys : cacheKeys (c.put p img t) = cacheKeys c ++ [p] := by
          show (c.put p img t).cache.map (·.1) = _
          rw [hclean, hpre, hfK]
        refine ⟨[], ⟨hmsput ▸ hms, ?_, ?_, ?_⟩, ?_⟩
        · rw [hkeys]
          simp only [List.nil_append] at hnd ⊢
          simp [List.nodup_append, hKnd, hp]
        · rw [hkeys]; simp; omega
        · intro ha; exact absurd rfl ha
        · rw [hkeys, htouch]
          simp
      · have hKn : (cacheKeys c).length = n := by omega
        have hclean : (c.put p img t).cache =
            (c.cache.filter (fun e => e.1 != p) ++ [(p, img, t)]).tail := by
          show cleanupLoop c.max_size _ = _
          exact cleanupLoop_of_succ (by rw [hprelen, hfK, hms, hKn])
        have hkeys : cacheKeys (c.put p img t) = (cacheKeys c ++ [p]).tail := by
          show (c.put p img t).cache.map (·.1) = _
          rw [hclean, List.map_tail, hpre, hfK]
        have hsub : (a.filter (fun k => k != p) ++ cacheKeys c).Nodup := by
          refine List.nodup_append.mpr ⟨hnd.of_append_left.filter _, hKnd, ?_⟩
          exact fun x hx hxK =>
            (List.disjoint_of_nodup_append hnd) (List.mem_of_mem_filter hx) hxK
        have hpnot : p ∉ a.filter (fun k => k != p) ++ cacheKeys c := by
          intro hmem
          rcases List.mem_append.mp hmem with hx | hx
          · exact not_mem_filter_ne a p hx
          · exact hp hx
        have hnd₂ : (a.filter (fun k => k != p) ++ (cacheKeys c ++ [p])).Nodup := by
          have hperm : ((a.filter (fun k => k != p) ++ cacheKeys c) ++ [p]).Perm
              (p :: (a.filter (fun k => k != p) ++ cacheKeys c)) :=
            List.perm_append_singleton _ _
          have : ((a.filter (fun k => k != p) ++ cacheKeys c) ++ [p]).Nodup :=
            hperm.nodup_iff.mpr (List.nodup_cons.mpr ⟨hpnot, hsub⟩)
          simpa [List.append_assoc] using this
        cases hK : cacheKeys c with
        | nil =>
          rw [hK] at hKn hnd₂ htouch hkeys
          refine ⟨a.filter (fun k => k != p) ++ [p], ⟨hmsput ▸ hms, ?_, ?_, ?_⟩, ?_⟩
          · rw [hkeys]
            simpa using hnd₂
          · rw [hkeys]; simp
          · intro _; rw [hkeys]; simp at hKn ⊢; omega
          · rw [hkeys, htouch]
            simp
        | cons k₀ Kt =>
          rw [hK] at hKn hnd₂ htouch hkeys
          refine ⟨a.filter (fun k => k != p) ++ [k₀], ⟨hmsput ▸ hms, ?_, ?_, ?_⟩, ?_⟩
          · rw [hkeys]
            simpa [List.append_assoc] using hnd₂
          · rw [hkeys]
            simp at hKn ⊢
            omega
          · intro _
            rw [hkeys]
            simp at hKn ⊢
            omega
          · rw [hkeys, htouch]
            simp [List.append_assoc]

theorem touchTrace_cons (c : ThumbnailCache) (op : CacheOp) (rest : List CacheOp) :
    touchTrace c (op :: rest) =
      (match op with
       | .get p => if p ∈ cacheKeys c then [p] else []
       | .put p _ _ => [p]) ++ touchTrace (runOp c op) rest := rfl

theorem runOps_hist (n : Nat) :
    ∀ (ops : List CacheOp) (c : ThumbnailCache) (a : List Key), CacheInv n a c →
    ∃ a', CacheInv n a' (runOps c ops) ∧
      a' ++ cacheKeys (runOps c ops) = foldTouches (a ++ cacheKeys c) (touchTrace c ops) := by
  intro ops
  induction ops with
  | nil =>
    intro c a h
    exact ⟨a, h, by simp [runOps, touchTrace, foldTouches]⟩
  | cons op rest ih =>
    intro c a h
    obtain ⟨a₁, h₁, heq₁⟩ := step_hist n op c a h
    obtain ⟨a', h', heq'⟩ := ih (runOp c op) a₁ h₁
    refine ⟨a', ?_, ?_⟩
    · simpa [runOps] using h'
    · have hrun : runOps c (op :: rest) = runOps (runOp c op) rest := by
        simp [runOps]
      rw [hrun, heq', touchTrace_cons, foldTouches_append, ← heq₁]

theorem takeLast_hist {n : Nat} {a l : List Key} (hlen : l.length ≤ n)
    (hfull : a ≠ [] → l.length = n) : takeLast n (a ++ l) = l := by
  cases a with
  | nil => simpa using takeLast_of_le hlen
  | cons x t => exact takeLast_append_of_length (hfull (by simp))

/-- C1: for a `ThumbnailCache` of capacity `n` (`MAX_THUMB_CACHE = 300` being
the capacity the application passes), after any sequence of `get` and `put`
operations from the empty cache, (i) the cache holds at most `n` entries, and
(ii) the keys present are exactly the last `n` distinct keys of the touch
sequence — the keys most recently touched by a `put` or by a hitting `get`,
in least-to-most-recently-used order.  The statement does not mention the
timestamps stored by `put`, which are arbitrary here: eviction depends only
on recency order, never on timestamp comparison. -/
theorem claim_C1_capacity_and_lru (n : Nat) (ops : List CacheOp) :
    MAX_THUMB_CACHE = 300 ∧
    (runOps (emptyCache n) ops).cache.length ≤ n ∧
    cacheKeys (runOps (emptyCache n) ops) =
      takeLast n (dedupLast (touchTrace (emptyCache n) ops)) := by
  have hinv : CacheInv n [] (emptyCache n) :=
    ⟨rfl, by simp [cacheKeys, emptyCache], by simp [cacheKeys, emptyCache],
      fun h => absurd rfl h⟩
  obtain ⟨a', ⟨hms, hnd, hlen, hfull⟩, heq⟩ := runOps_hist n ops (emptyCache n) [] hinv
  have hkeys0 : cacheKeys (emptyCache n) = [] := rfl
  rw [hkeys0] at heq
  have hfd : foldTouches ([] ++ ([] : List Key)) (touchTrace (emptyCache n) ops) =
      dedupLast (touchTrace (emptyCache n) ops) := by
    have h := foldTouches_dedupLast (touchTrace (emptyCache n) ops) []
    simpa [dedupLast] using h
  rw [hfd] at heq
  refine ⟨rfl, ?_, ?_⟩
  · have hl : (runOps (emptyCache n) ops).cache.length =
        (cacheKeys (runOps (emptyCache n) ops)).length := by
      simp [cacheKeys]
    rw [hl]; exact hlen
  · rw [← heq]
    exact (takeLast_hist hlen hfull).symm

theorem filter_key_perm :
    ∀ {l : List (Key × Img × Int)} {e : Key × Img × Int},
      (l.map (·.1)).Nodup → e ∈ l → (l.filter (fun x => x.1 != e.1) ++ [e]).Perm l := by
  intro l
  induction l with
  | nil => intro e _ he; exact absurd he (List.not_mem_nil e)
  | cons x t ih =>
    intro e hnd he
    rw [List.map_cons] at hnd
    obtain ⟨hxnd, htnd⟩ := List.nodup_cons.mp hnd
    by_cases hxe : x = e
    · subst hxe
      rw [List.filter_cons, if_neg (by simp),
        List.filter_eq_self.mpr (fun y hy => by
          simp only [bne_iff_ne, ne_eq]
          exact fun hk => hxnd (hk ▸ (List.mem_map.mpr ⟨y, hy, rfl⟩)))]
      exact List.perm_append_singleton _ _
    · have het : e ∈ t := by
        rcases List.mem_cons.mp he with h | h
        · exact absurd h.symm hxe
        · exact h
      have hxk : x.1 ≠ e.1 := fun hk =>
        hxnd (hk ▸ (List.mem_map.mpr ⟨e, het, rfl⟩))
      rw [List.filter_cons, if_pos (by simpa using hxk), List.cons_append]
      exact (ih htnd het).cons x

/-- C2 is refuted on the code: `get` does not refresh the stored timestamp.
Put key "a" at time 0; a later `get "a"` hits (and is thus the most recent
touch of the entry); yet `purge_unused` at time 1000 with threshold 900
removes the entry, because it compares against the `put` time 0, not the
access time.  The claim "an entry touched via get more recently than the
threshold survives purge_unused" fails at this input. -/
theorem claim_C2_counterexample :
    ((emptyCache 300).put "a" 7 0).cache = [("a", 7, 0)] ∧
    ((ThumbnailCache.mk [("a", 7, 0)] 300).get "a").1 = some 7 ∧
    (((ThumbnailCache.mk [("a", 7, 0)] 300).get "a").2.purge_unused 1000 900).cache = [] := by
  refine ⟨?_, by decide, by decide⟩
  show cleanupLoop 300 (List.filter _ [] ++ [("a", 7, 0)]) = _
  rw [cleanupLoop_of_le (by simp)]
  rfl

/-- C2 amended (changed only as the counterexample forces): `purge_unused`
keeps exactly the entries whose time since the last `put` is at most
`max_age`; a `get` permutes the entries (moving the hit one to the MRU end)
but preserves every entry — key, image and stored timestamp — unchanged, so
whether an entry survives `purge_unused` depends only on its last `put` time,
with intervening `get`s irrelevant.  The no-duplicate-keys hypothesis is the
dict invariant, which every reachable cache state satisfies. -/
theorem claim_C2_purge_by_put_time (c : ThumbnailCache) (k : Key) (now max_age : Int)
    (hnd : (cacheKeys c).Nodup) :
    ((c.get k).2.cache).Perm c.cache ∧
    (∀ e, e ∈ (c.purge_unused now max_age).cache ↔
      e ∈ c.cache ∧ now - e.2.2 ≤ max_age) := by
  constructor
  · by_cases hk : k ∈ cacheKeys c
    · obtain ⟨e, he, hek⟩ : ∃ e, e ∈ c.cache ∧ e.1 = k := by
        simpa [cacheKeys, List.mem_map] using hk
      have hsome : (c.cache.find? (fun x => x.1 == k)).isSome :=
        List.find?_isSome.mpr ⟨e, he, by simp [hek]⟩
      obtain ⟨e', hfind⟩ := Option.isSome_iff_exists.mp hsome
      have he'k : e'.1 = k := by simpa using List.find?_some hfind
      have he'mem : e' ∈ c.cache := List.mem_of_find?_eq_some hfind
      have hperm : (c.cache.filter (fun x => x.1 != k) ++ [e']).Perm c.cache := by
        rw [← he'k]
        exact filter_key_perm hnd he'mem
      simp only [ThumbnailCache.get, hfind]
      exact hperm
    · rw [get_miss hk]
  · intro e
    simp [ThumbnailCache.purge_unused, List.mem_filter, not_lt]

/-- Witness for the amended C2 theorem at a concrete cache. -/
theorem claim_C2_purge_by_put_time_witness :
    ((ThumbnailCache.mk [("a", 7, 0)] 300).get "a").2.cache.Perm [("a", 7, 0)] :=
  (claim_C2_purge_by_put_time ⟨[("a", 7, 0)], 300⟩ "a" 1000 900 (by decide)).1

/-! Correctness of the Brzozowski-derivative regex matcher. -/

theorem cat_inv {a b : Rx} {s : List Char} (h : RxLang (.cat a b) s) :
    ∃ u v, s = u ++ v ∧ RxLang a u ∧ RxLang b v := by
  cases h with
  | cat hu hv => exact ⟨_, _, rfl, hu, hv⟩

theorem nullable_iff : ∀ (r : Rx), r.nullable = true ↔ RxLang r [] := by
  intro r
  induction r with
  | emp =>
    simp only [Rx.nullable, Bool.false_eq_true, false_iff]
    intro h; nomatch h
  | eps =>
    simp only [Rx.nullable, true_iff]
    exact RxLang.eps
  | lit c =>
    simp only [Rx.nullable, Bool.false_eq_true, false_iff]
    intro h; nomatch h
  | dot =>
    simp only [Rx.nullable, Bool.false_eq_true, false_iff]
    intro h; nomatch h
  | alt a b iha ihb =>
    simp only [Rx.nullable, Bool.or_eq_true, iha, ihb]
    constructor
    · rintro (h | h)
      · exact RxLang.altL h
      · exact RxLang.altR h
    · intro h
      cases h with
      | altL h => exact Or.inl h
      | altR h => exact Or.inr h
  | cat a b iha ihb =>
    simp only [Rx.nullable, Bool.and_eq_true, iha, ihb]
    constructor
    · rintro ⟨ha, hb⟩
      exact (RxLang.cat ha hb : RxLang _ ([] ++ []))
    · intro h
      obtain ⟨u, v, heq, hu, hv⟩ := cat_inv h
      obtain ⟨hu0, hv0⟩ := List.append_eq_nil.mp heq.symm
      subst hu0; subst hv0
      exact ⟨hu, hv⟩
  | star a iha =>
    simp only [Rx.nullable, true_iff]
    exact RxLang.starNil

theorem star_cons_split {a : Rx} :
    ∀ {r : Rx} {w : List Char}, RxLang r w → r = Rx.star a →
      ∀ {c : Char} {s : List Char}, w = c :: s →
        ∃ u v, s = u ++ v ∧ RxLang a (c :: u) ∧ RxLang (.star a) v := by
  intro r w h
  induction h with
  | eps => intro hr; nomatch hr
  | lit c => intro hr; nomatch hr
  | dot c => intro hr; nomatch hr
  | altL h ih => intro hr; nomatch hr
  | altR h ih => intro hr; nomatch hr
  | cat hu hv ihu ihv => intro hr; nomatch hr
  | starNil => intro _ c s hw; nomatch hw
  | starCons h₁ h₂ ih₁ ih₂ =>
    intro hr c s hw
    rename_i a' u v
    cases hr
    cases u with
    | nil =>
      simp only [List.nil_append] at hw
      exact ih₂ rfl hw
    | cons u₀ ut =>
      rw [List.cons_append] at hw
      injection hw with h₀ hrest
      subst h₀
      exact ⟨ut, v, hrest.symm, h₁, h₂⟩

theorem deriv_iff : ∀ (r : Rx) (c : Char) (s : List Char),
    RxLang (r.deriv c) s ↔ RxLang r (c :: s) := by
  intro r
  induction r with
  | emp =>
    intro c s
    constructor
    · intro h; nomatch h
    · intro h; nomatch h
  | eps =>
    intro c s
    constructor
    · intro h; nomatch h
    · intro h; nomatch h
  | lit b =>
    intro c s
    simp only [Rx.deriv]
    by_cases hcb : c = b
    · rw [if_pos hcb]
      subst hcb
      constructor
      · intro h; cases h; exact RxLang.lit c
      · intro h; cases h; exact RxLang.eps
    · rw [if_neg hcb]
      constructor
      · intro h; nomatch h
      · intro h
        cases h
        exact absurd rfl hcb
  | dot =>
    intro c s
    simp only [Rx.deriv]
    constructor
    · intro h; cases h; exact RxLang.dot c
    · intro h; cases h; exact RxLang.eps
  | alt a b iha ihb =>
    intro c s
    simp only [Rx.deriv]
    constructor
    · intro h
      cases h with
      | altL h => exact RxLang.altL ((iha c s).mp h)
      | altR h => exact RxLang.altR ((ihb c s).mp h)
    · intro h
      cases h with
      | altL h => exact RxLang.altL ((iha c s).mpr h)
      | altR h => exact RxLang.altR ((ihb c s).mpr h)
  | cat a b iha ihb =>
    intro c s
    simp only [Rx.deriv]
    by_cases hn : a.nullable
    · rw [if_pos hn]
      constructor
      · intro h
        cases h with
        | altL h =>
          cases h with
          | cat hu hv =>
            rename_i u v
            exact (RxLang.cat ((iha c u).mp hu) hv : RxLang _ ((c :: u) ++ v))
        | altR h =>
          exact (RxLang.cat ((nullable_iff a).mp hn) ((ihb c s).mp h) :
            RxLang _ ([] ++ (c :: s)))
      · intro h
        obtain ⟨u, v, heq, hu, hv⟩ := cat_inv h
        cases u with
        | nil =>
          rw [List.nil_append] at heq
          exact RxLang.altR ((ihb c s).mpr (heq.symm ▸ hv))
        | cons u₀ ut =>
          rw [List.cons_append] at heq
          injection heq with h₀ hrest
          subst h₀
          exact RxLang.altL
            (hrest.symm ▸ (RxLang.cat ((iha c ut).mpr hu) hv))
    · rw [if_neg hn]
      constructor
      · intro h
        cases h with
        | cat hu hv =>
          rename_i u v
          exact (RxLang.cat ((iha c u).mp hu) hv : RxLang _ ((c :: u) ++ v))
      · intro h
        obtain ⟨u, v, heq, hu, hv⟩ := cat_inv h
        cases u with
        | nil => exact absurd ((nullable_iff a).mpr hu) hn
        | cons u₀ ut =>
          rw [List.cons_append] at heq
          injection heq with h₀ hrest
          subst h₀
          exact hrest.symm ▸ (RxLang.cat ((iha c ut).mpr hu) hv)
  | star a iha =>
    intro c s
    simp only [Rx.deriv]
    constructor
    · intro h
      cases h with
      | cat hu hv =>
        rename_i u v
        exact (RxLang.starCons ((iha c u).mp hu) hv : RxLang _ ((c :: u) ++ v))
    · intro h
      obtain ⟨u, v, hs, hu, hv⟩ := star_cons_split h rfl rfl
      exact hs ▸ (RxLang.cat ((iha c u).mpr hu) hv)

theorem rmatchList_iff : ∀ (s : List Char) (r : Rx), rmatchList r s = true ↔ RxLang r s := by
  intro s
  induction s with
  | nil => exact fun r => nullable_iff r
  | cons c t ih =>
    intro r
    exact (ih (r.deriv c)).trans (deriv_iff r c t)

theorem star_dot_lang : ∀ (s : List Char), RxLang (.star .dot) s := by
  intro s
  induction s with
  | nil => exact RxLang.starNil
  | cons c t ih => exact (RxLang.starCons (RxLang.dot c) ih : RxLang _ ([c] ++ t))

theorem rsearch_iff (r : Rx) (s : List Char) :
    rsearch r s = true ↔ ∃ u v w, s = u ++ v ++ w ∧ RxLang r v := by
  rw [rsearch, rmatchList_iff]
  constructor
  · intro h
    cases h with
    | cat h₁ h₂ =>
      rename_i u v
      cases h₂ with
      | cat h₃ h₄ =>
        rename_i v₁ v₂
        exact ⟨u, v₁, v₂, by simp [List.append_assoc], h₃⟩
  · rintro ⟨u, v, w, rfl, hv⟩
    have h := RxLang.cat (star_dot_lang u) (RxLang.cat hv (star_dot_lang w))
    simpa [List.append_assoc] using h

theorem litChain_lang : ∀ (q s : List Char), RxLang (litChain q) s ↔ s = q := by
  intro q
  induction q with
  | nil =>
    intro s
    simp only [litChain]
    constructor
    · intro h; cases h; rfl
    · rintro rfl; exact RxLang.eps
  | cons c q ih =>
    intro s
    simp only [litChain]
    constructor
    · intro h
      obtain ⟨u, v, heq, hu, hv⟩ := cat_inv h
      cases hu
      rw [(ih v).mp hv] at heq
      simpa using heq
    · rintro rfl
      exact (RxLang.cat (RxLang.lit c) ((ih q).mpr rfl) : RxLang _ ([c] ++ q))

theorem isPre_iff : ∀ (q s : List Char), isPre q s = true ↔ ∃ t, s = q ++ t := by
  intro q
  induction q with
  | nil => intro s; simp [isPre]
  | cons a as ih =>
    intro s
    cases s with
    | nil =>
      simp only [isPre, Bool.false_eq_true, false_iff]
      rintro ⟨t, ht⟩
      nomatch ht
    | cons b bs =>
      simp only [isPre, Bool.and_eq_true, beq_iff_eq]
      rw [ih bs]
      constructor
      · rintro ⟨rfl, t, rfl⟩
        exact ⟨t, rfl⟩
      · rintro ⟨t, ht⟩
        injection ht with h1 h2
        exact ⟨h1.symm, t, h2⟩

theorem containsSub_iff : ∀ (s q : List Char),
    containsSub q s = true ↔ ∃ u t, s = u ++ q ++ t := by
  intro s
  induction s with
  | nil =>
    intro q
    simp only [containsSub]
    rw [isPre_iff]
    constructor
    · rintro ⟨t, ht⟩
      exact ⟨[], t, by simpa using ht⟩
    · rintro ⟨u, t, h⟩
      obtain ⟨huq, hT⟩ := List.append_eq_nil.mp h.symm
      obtain ⟨hu, hq⟩ := List.append_eq_nil.mp huq
      exact ⟨t, by rw [hq]; simpa using hT.symm⟩
  | cons b bs ih =>
    intro q
    simp only [containsSub, Bool.or_eq_true]
    rw [isPre_iff, ih q]
    constructor
    · rintro (⟨t, ht⟩ | ⟨u, t, ht⟩)
      · exact ⟨[], t, by simpa using ht⟩
      · exact ⟨b :: u, t, by simp [ht]⟩
    · rintro ⟨u, t, ht⟩
      cases u with
      | nil => exact Or.inl ⟨t, by simpa using ht⟩
      | cons u₀ us =>
        rw [List.cons_append, List.cons_append] at ht
        injection ht with h1 h2
        exact Or.inr ⟨us, t, h2⟩

theorem splitBar_no_bar : ∀ {cs : List Char}, (∀ c ∈ cs, c ≠ '|') → splitBar cs = [cs] := by
  intro cs
  induction cs with
  | nil => intro _; rfl
  | cons c rest ih =>
    intro h
    have hr := ih (fun x hx => h x (List.mem_cons_of_mem c hx))
    simp only [splitBar, hr]
    rw [if_neg (h c (List.mem_cons_self c rest))]

theorem plainChar_facts {c : Char} (hc : plainChar c = true) :
    c ≠ '(' ∧ c ≠ ')' ∧ c ≠ '[' ∧ c ≠ ']' ∧ c ≠ '^' ∧ c ≠ '$' ∧ c ≠ '\\' ∧
    c ≠ '*' ∧ c ≠ '+' ∧ c ≠ '?' ∧ c ≠ '|' ∧ c ≠ '.' ∧ c ≠ '\x7b' ∧ c ≠ '\x7d' := by
  have h : ¬(c ∈ ['(', ')', '[', ']', '^', '$', '\\', '*', '+', '?', '|', '.'] ∨
      c = '\x7b' ∨ c = '\x7d') := by
    simpa [plainChar] using hc
  push_neg at h
  obtain ⟨hmem, hb1, hb2⟩ := h
  simp only [List.mem_cons, List.not_mem_nil, or_false] at hmem
  push_neg at hmem
  exact ⟨hmem.1, hmem.2.1, hmem.2.2.1, hmem.2.2.2.1, hmem.2.2.2.2.1, hmem.2.2.2.2.2.1,
    hmem.2.2.2.2.2.2.1, hmem.2.2.2.2.2.2.2.1, hmem.2.2.2.2.2.2.2.2.1,
    hmem.2.2.2.2.2.2.2.2.2.1, hmem.2.2.2.2.2.2.2.2.2.2.1, hmem.2.2.2.2.2.2.2.2.2.2.2,
    hb1, hb2⟩

theorem branchStep_plain {c : Char} (hc : plainChar c = true)
    (acc : List (Rx × Bool)) :
    branchStep (some acc) c = some ((Rx.lit c, false) :: acc) := by
  obtain ⟨h1, h2, h3, h4, h5, h6, h7, h8, h9, h10, h11, h12, h13, h14⟩ := plainChar_facts hc
  simp only [branchStep]
  rw [if_neg (by rintro (h | h | h) <;> [exact h8 h; exact h9 h; exact h10 h])]
  rw [if_neg h12]
  rw [if_neg (by
    rintro (hm | hm | hm)
    · simp only [List.mem_cons, List.not_mem_nil, or_false] at hm
      rcases hm with h | h | h | h | h | h | h <;>
        [exact h1 h; exact h2 h; exact h3 h; exact h4 h; exact h5 h; exact h6 h; exact h7 h]
    · exact h13 hm
    · exact h14 hm)]

theorem foldl_branchStep_plain :
    ∀ (q : List Char) (acc : List (Rx × Bool)), (∀ c ∈ q, plainChar c = true) →
      List.foldl branchStep (some acc) q =
        some ((q.map (fun c => (Rx.lit c, false))).reverse ++ acc) := by
  intro q
  induction q with
  | nil => intro acc _; simp
  | cons c q ih =>
    intro acc h
    rw [List.foldl_cons, branchStep_plain (h c (List.mem_cons_self c q)) acc,
      ih ((Rx.lit c, false) :: acc) (fun x hx => h x (List.mem_cons_of_mem c hx))]
    simp

theorem foldr_cat_map (q : List Char) :
    (q.map (fun c => (Rx.lit c, false))).foldr (fun rb acc => Rx.cat rb.1 acc) Rx.eps =
      litChain q := by
  induction q with
  | nil => rfl
  | cons c t ih => simp [litChain, ih]

theorem parseBranch_plain {q : List Char} (h : ∀ c ∈ q, plainChar c = true) :
    parseBranch q = some (litChain q) := by
  simp only [parseBranch, foldl_branchStep_plain q [] h]
  rw [List.append_nil, List.reverse_reverse, foldr_cat_map]

theorem parsePattern_plain {q : String} (h : plainPattern q = true) :
    parsePattern q = some (litChain q.data) := by
  have hall : ∀ c ∈ q.data, plainChar c = true := by
    simpa [plainPattern, List.all_eq_true] using h
  have hbar : ∀ c ∈ q.data, c ≠ '|' := fun c hc he =>
    (plainChar_facts (hall c hc)).2.2.2.2.2.2.2.2.2.2.1 he
  rw [parsePattern, splitBar_no_bar hbar]
  simp only [parseBranches, parseBranch_plain hall]
  rfl

theorem bool_eq_of_iff {a b : Bool} (h : a = true ↔ b = true) : a = b := by
  cases a <;> cases b <;> simp_all

theorem pyContains_plain {q : String} (h : plainPattern q = true) (s : String) :
    pyContains q s = containsSub q.data s.data := by
  rw [pyContains, parsePattern_plain h]
  apply bool_eq_of_iff
  rw [rsearch_iff, containsSub_iff]
  constructor
  · rintro ⟨u, v, w, hs, hv⟩
    rw [(litChain_lang _ _).mp hv] at hs
    exact ⟨u, w, hs⟩
  · rintro ⟨u, t, hs⟩
    exact ⟨u, q.data, t, hs, (litChain_lang _ _).mpr rfl⟩

/-! Pagination (C3). -/

theorem maxPageOf_eq (len : Nat) : maxPageOf len = pageCount len - 1 := by
  rw [maxPageOf, pageCount, show IMAGES_PER_PAGE = 20 from rfl]
  rcases Nat.eq_zero_or_pos len with h | h
  · subst h; decide
  · have h1 : 1 ≤ (len + 20 - 1) / 20 := by omega
    rw [Nat.max_eq_right h1, Nat.zero_max]

/-- C3 amended: `IMAGES_PER_PAGE` is 20; the displayed page count is
`max(1, ceil(len/20))` (stated as: 1 for the empty view, and for a non-empty
view the unique value whose last page is non-empty and which covers the view);
`_apply_filters` — which every filter change, mark toggle, mark-all and
clear-marked runs — leaves the *gallery* page clamped into
`[0, page_count - 1]`; and next/prev of both views are no-ops at their
boundaries (never wrap, never error).  The original claim fails only in that
the *marked* view's page index is never clamped when the marked view shrinks
(see the counterexample). -/
theorem claim_C3_pagination (s : GState) (b : Bool) (len : Nat) :
    IMAGES_PER_PAGE = 20 ∧
    (len = 0 → pageCount len = 1) ∧
    (0 < len → len ≤ pageCount len * IMAGES_PER_PAGE ∧
      (pageCount len - 1) * IMAGES_PER_PAGE < len) ∧
    (applyFilters b s).page ≤ pageCount (applyFilters b s).filtered_df.length - 1 ∧
    (maxPageOf s.filtered_df.length ≤ s.page → nextPage s = s) ∧
    (s.page = 0 → prevPage s = s) ∧
    (maxPageOf (markedCount s) ≤ s.marked_page → nextMarkedPage s = s) ∧
    (s.marked_page = 0 → prevMarkedPage s = s) := by
  refine ⟨rfl, ?_, ?_, ?_, ?_, ?_, ?_, ?_⟩
  · rintro rfl; rfl
  · intro hlen
    rw [pageCount, show IMAGES_PER_PAGE = 20 from rfl]
    have h1 : 1 ≤ (len + 20 - 1) / 20 := by omega
    rw [Nat.max_eq_right h1]
    omega
  · show (if b then 0 else min s.page (maxPageOf _)) ≤ _
    cases b
    · rw [if_neg (by simp), ← maxPageOf_eq]
      exact Nat.min_le_right _ _
    · rw [if_pos rfl]
      exact Nat.zero_le _
  · intro hmp
    rw [nextPage, if_neg (by omega)]
  · intro hp
    rw [prevPage, if_neg (by omega)]
  · intro hmp
    have hng : ¬((s.marked_page + 1) * IMAGES_PER_PAGE < markedCount s) := by
      rw [maxPageOf, show IMAGES_PER_PAGE = 20 from rfl, Nat.zero_max] at hmp
      rw [show IMAGES_PER_PAGE = 20 from rfl]
      omega
    rw [nextMarkedPage, if_neg hng]
  · intro hp
    rw [prevMarkedPage, if_neg (by omega)]

/-- Witness for the C3 amended theorem: at the last page of the one-row view,
`_next_page` is a no-op. -/
theorem claim_C3_pagination_witness : nextPage sSel = sSel := by
  have h := claim_C3_pagination sSel true 0
  exact h.2.2.2.2.1 (by decide)

/-- C3 is refuted as stated for the marked view: with 21 marked rows, go to
marked page 1, then clear all marks (which re-runs `_apply_filters`); the
marked view is now empty (`page_count = 1`, valid pages `[0, 0]`), yet
`marked_page` is still 1 — no code path clamps it. -/
theorem claim_C3_counterexample :
    (clearMarked (nextMarkedPage (applyFilters true s21))).marked_page = 1 ∧
    markedCount (clearMarked (nextMarkedPage (applyFilters true s21))) = 0 ∧
    maxPageOf (markedCount (clearMarked (nextMarkedPage (applyFilters true s21)))) = 0 := by
  decide

/-! Selection (C4). -/

/-- C4 amended: the selection is a single optional row identity
(`selected_index`), set by clicking a thumbnail; it is cleared on every
`_apply_filters` run — and therefore it is also cleared (not preserved) by
`_toggle_mark`, which ends in `_apply_filters(reset_page=False)`. -/
theorem claim_C4_selection (s : GState) (b : Bool) (i : Nat) :
    (applyFilters b s).selected_index = none ∧
    (toggleMark s).selected_index = none ∧
    (selectRow i s).selected_index = some i := by
  refine ⟨rfl, ?_, rfl⟩
  rw [toggleMark]
  cases hs : s.selected_index with
  | none => exact hs
  | some j => rfl

/-- C4 is refuted as stated: a selected row stops being selected after
`_toggle_mark` (the claim says the selection is preserved across it). -/
theorem claim_C4_counterexample :
    sSel.selected_index = some 0 ∧ (toggleMark sSel).selected_index = none := by
  decide

/-! Filter engine (C5, C6, C7, C10). -/

/-- C5: for every predicate set, the FilteredView is an order-preserving
subsequence of the Table (hence contains only Table rows); filtering is
idempotent (`applyFiltersPure fs` is a fixpoint on its own output); and at the
state level re-running `_apply_filters` with unchanged widgets reproduces the
same `filtered_df` — no hidden state. -/
theorem claim_C5_filter_subsequence_idempotent (fs : FilterSettings) (t : List Row)
    (s : GState) (b : Bool) :
    (applyFiltersPure fs t).Sublist t ∧
    applyFiltersPure fs (applyFiltersPure fs t) = applyFiltersPure fs t ∧
    (applyFilters b (applyFilters b s)).filtered_df = (applyFilters b s).filtered_df := by
  refine ⟨List.filter_sublist t, ?_, rfl⟩
  rw [applyFiltersPure, applyFiltersPure, List.filter_filter]
  congr 1
  funext r
  exact Bool.and_self _

theorem rowPassesBase_marked (fs : FilterSettings) (r : Row) (b : Bool) :
    rowPassesBase fs { r with marked := b } = rowPassesBase fs r := rfl

theorem rowPassesBase_hide (fs : FilterSettings) (r : Row) (b : Bool) :
    rowPassesBase { fs with hide_marked := b } r = rowPassesBase fs r := rfl

/-- C6: mark every row of the current FilteredView (`_mark_all_filtered`, a
batch write through the view's `index` column), enable hide-marked, re-apply
the filters: the resulting FilteredView is empty. -/
theorem claim_C6_mark_all_then_hide (s : GState) (b : Bool) :
    (applyFilters true
      (setHideMarked true (markAllFiltered (applyFilters b s)))).filtered_df = [] := by
  have h6 : (applyFilters true
      (setHideMarked true (markAllFiltered (applyFilters b s)))).filtered_df =
      applyFiltersPure { s.settings with hide_marked := true }
        (s.df.map (fun r =>
          if r.idx ∈ (applyFiltersPure s.settings s.df).map (·.idx) then
            { r with marked := true } else r)) := rfl
  rw [h6, applyFiltersPure, List.filter_eq_nil_iff]
  intro r' hr'
  obtain ⟨r, hr, hmap⟩ := List.mem_map.mp hr'
  by_cases hidx : r.idx ∈ (applyFiltersPure s.settings s.df).map (·.idx)
  · rw [if_pos hidx] at hmap
    rw [← hmap]
    simp [rowPasses, rowPassesBase_hide]
  · rw [if_neg hidx] at hmap
    subst hmap
    intro hpass
    apply hidx
    rw [rowPasses, rowPassesBase_hide] at hpass
    have hparts := Bool.and_eq_true_iff.mp hpass
    have hbase : rowPassesBase s.settings r = true := hparts.1
    have hnm : r.marked = false := by
      have h2 := hparts.2
      simpa using h2
    have hfull : rowPasses s.settings r = true := by
      rw [rowPasses, hbase, hnm]
      simp
    exact List.mem_map.mpr ⟨r, List.mem_filter.mpr ⟨hr, hfull⟩, rfl⟩

theorem textPass_plain {q : String} (h : plainPattern (pyLower (pyStrip q)) = true)
    (f : String) :
    textPass q f =
      (decide (pyLower (pyStrip q) = "") ||
        containsSub (pyLower (pyStrip q)).data (pyLower f).data) := by
  rw [textPass]
  by_cases hq : pyLower (pyStrip q) = ""
  · simp [hq]
  · simp [hq, pyContains_plain h]

/-- C7 amended: the dir and file predicates are applied independently to the
`dir` and `file` fields; each matches the stripped, lowercased query inside
the lowercased field under pandas `str.contains` semantics — which is a
*regular-expression* search (`regex=True` is the default), not literal
containment.  For a query whose stripped form is free of regex
metacharacters (the only case the spec's wording describes) this coincides
with case-insensitive literal substring containment of the *stripped* query,
and a query that strips to empty imposes no restriction.  Stated over a
predicate set whose other filters are inactive, so the text predicates alone
decide membership. -/
theorem claim_C7_text_predicates (dq fq : String) (t : List Row) (r : Row)
    (hd : plainPattern (pyLower (pyStrip dq)) = true)
    (hf : plainPattern (pyLower (pyStrip fq)) = true) :
    r ∈ applyFiltersPure ⟨[], [], dq, fq, false⟩ t ↔
      r ∈ t ∧
      (pyLower (pyStrip dq) = "" ∨
        containsSub (pyLower (pyStrip dq)).data (pyLower r.dir).data = true) ∧
      (pyLower (pyStrip fq) = "" ∨
        containsSub (pyLower (pyStrip fq)).data (pyLower r.file).data = true) := by
  rw [applyFiltersPure, List.mem_filter, rowPasses, rowPassesBase]
  simp only [List.all_nil, Bool.true_and, Bool.not_false, Bool.or_true, Bool.and_true,
    textPass_plain hd, textPass_plain hf, Bool.and_eq_true, Bool.or_eq_true,
    decide_eq_true_eq]
  tauto

/-- Witness for the C7 amended theorem: query " AB " (whitespace-padded,
uppercase) finds the row whose dir is "xaBy". -/
theorem claim_C7_text_predicates_witness :
    (⟨0, "xaBy", "f", false, [], []⟩ : Row) ∈
      applyFiltersPure ⟨[], [], " AB ", "", false⟩ [⟨0, "xaBy", "f", false, [], []⟩] := by
  have h := claim_C7_text_predicates " AB " "" [⟨0, "xaBy", "f", false, [], []⟩]
    ⟨0, "xaBy", "f", false, [], []⟩ (by decide) (by decide)
  exact h.mpr ⟨by decide, Or.inr (by decide), Or.inl (by decide)⟩

/-- C7 is refuted as stated: with dir query ".", the row with dir "abc" is in
the filtered view — pandas `str.contains` interprets the query as a regular
expression, where `.` matches any character — although "." does not occur
in "abc" as a literal substring, ignoring case or not.  The claimed
"included iff literal substring" equivalence fails at this input. -/
theorem claim_C7_counterexample :
    applyFiltersPure ⟨[], [], ".", "", false⟩ [⟨0, "abc", "f", false, [], []⟩] =
      [⟨0, "abc", "f", false, [], []⟩] ∧
    containsSub (pyLower (pyStrip ".")).data (pyLower "abc").data = false := by
  decide

/-- C10: a row whose value in a numerically-filtered column is missing (NaN)
is excluded from the FilteredView regardless of that filter's bounds: the
range mask `(df[k] >= mn) & (df[k] <= mx)` is applied for every entry of
`numeric_filters` unconditionally, and both comparisons are false on NaN. -/
theorem claim_C10_nan_rows_excluded (fs : FilterSettings) (t : List Row) (r : Row)
    (k : String) (mn mx : ℚ) (hk : (k, mn, mx) ∈ fs.numeric_filters)
    (hnan : r.numAt k = none) :
    r ∉ applyFiltersPure fs t := by
  intro hmem
  have hpass := (List.mem_filter.mp hmem).2
  rw [rowPasses, Bool.and_eq_true, rowPassesBase] at hpass
  have hall : fs.numeric_filters.all (numPass r) = true := by
    have h1 := hpass.1
    simp only [Bool.and_eq_true] at h1
    exact h1.1.1.1
  have hone := List.all_eq_true.mp hall (k, mn, mx) hk
  simp [numPass, hnan] at hone

/-- Witness for C10 at a concrete NaN row. -/
theorem claim_C10_nan_rows_excluded_witness :
    (⟨1, "d", "f", false, [("score", none)], []⟩ : Row) ∉
      applyFiltersPure ⟨[("score", 0, 1)], [], "", "", false⟩
        [⟨1, "d", "f", false, [("score", none)], []⟩] :=
  claim_C10_nan_rows_excluded _ _ _ "score" 0 1 (by decide) (by decide)

/-! Export (C8). -/

theorem export_foldl (l : List Row) : ∀ acc : String,
    l.foldl (fun a r => a ++ (pathJoin r.dir r.file ++ "\n")) acc =
      acc ++ specExportLines l := by
  induction l with
  | nil => intro acc; simp [specExportLines]
  | cons r rest ih =>
    intro acc
    rw [List.foldl_cons, ih, specExportLines, String.append_assoc]

/-- C8: `_export_marked_txt` refuses (a notice, not an error; nothing written)
exactly when no row is marked; otherwise the written content is one
`os.path.join(dir, file)` line per marked row, newline-terminated, in Table
order — `specExportLines` of the marked rows. -/
theorem claim_C8_export_marked (t : List Row) :
    (exportMarkedTxt t = none ↔ t.filter (·.marked) = []) ∧
    (t.filter (·.marked) ≠ [] →
      exportMarkedTxt t = some (specExportLines (t.filter (·.marked)))) := by
  constructor
  · rw [exportMarkedTxt]
    by_cases h : (t.filter (·.marked)).isEmpty
    · simp only [if_pos h, true_iff]
      exact List.isEmpty_iff.mp h
    · rw [if_neg h]
      constructor
      · intro hc; exact Option.noConfusion hc
      · intro hc; exact absurd (List.isEmpty_iff.mpr hc) h
  · intro h
    rw [exportMarkedTxt, if_neg (fun hc => h (List.isEmpty_iff.mp hc)), export_foldl,
      String.empty_append]

/-- Witness for C8: three rows, two marked, exported in Table order. -/
theorem claim_C8_export_marked_witness :
    exportMarkedTxt [⟨0, "a", "b", true, [], []⟩, ⟨1, "c", "d", false, [], []⟩,
      ⟨2, "e", "f", true, [], []⟩] = some "a/b\ne/f\n" := by
  have h := (claim_C8_export_marked [⟨0, "a", "b", true, [], []⟩,
    ⟨1, "c", "d", false, [], []⟩, ⟨2, "e", "f", true, [], []⟩]).2 (by decide)
  rw [h]
  rfl

/-! Startup (C9). -/

/-- C9 describes the intended behaviour, but the code has a slip:
`_load_dataframe` aborts its two fatal cases with `self.destroy(); return`,
yet `return` only leaves `_load_dataframe` — `__init__` then proceeds into
`_build_layout`, which raises on the destroyed root (`TclError`; and the
attributes `_load_dataframe` never assigned would raise `AttributeError`),
so the process dies with an uncaught exception instead of exiting cleanly;
in the no-file case no message is shown at all.  This theorem evaluates the
model at both failing inputs, and at a well-formed input for contrast. -/
theorem claim_C9_startup_uncaught_exception :
    initGallery none = .error "TclError: application has been destroyed" ∧
    (loadDataframe none).destroyed = true ∧
    initGallery (some ("t.csv", [⟨"x", true⟩])) =
      .error "TclError: application has been destroyed" ∧
    (loadDataframe (some ("t.csv", [⟨"x", true⟩]))).errorShown = true ∧
    initGallery (some ("ok.csv", [⟨"dir", false⟩, ⟨"file", false⟩])) =
      .ok (loadDataframe (some ("ok.csv", [⟨"dir", false⟩, ⟨"file", false⟩]))) := by
  exact ⟨rfl, rfl, rfl, rfl, rfl⟩

end GalleryGui

